import Mathlib

/-!
Shallow embedding of `control/margins.py` (stability margins for SISO LTI
systems) and proofs about its claims.

Polynomials are coefficient lists, highest degree first, exactly as the
numpy `poly*` helpers used by the source treat them.  Float arithmetic is
modelled exactly over an arbitrary linear ordered field (instantiated at
`ℚ` for decidable evaluation and at `ℝ` where irrational data appears).
The numerical root oracle `np.roots` is not computable; pipeline stages
that consume its output are parametrised by the list of real roots it
returns, and everything downstream of that point is embedded faithfully.
-/

namespace Margins

variable {α : Type} [LinearOrderedField α]

/-- Horner evaluation (`np.polyval`) of a highest-degree-first
coefficient list. -/
def polyval (pol : List α) (x : α) : α :=
  pol.foldl (fun acc c => acc * x + c) 0

/-- Addition (`np.polyadd`): left-pad the shorter list with zeros, add
pointwise. -/
def polyadd (a b : List α) : List α :=
  (List.replicate (max a.length b.length - a.length) 0 ++ a).zipWith (· + ·)
    (List.replicate (max a.length b.length - b.length) 0 ++ b)

/-- Coefficient-wise negation (`-p` on a numpy array). -/
def polyneg (a : List α) : List α := a.map (fun c => -c)

/-- Subtraction (`np.polysub`). -/
def polysub (a b : List α) : List α := polyadd a (polyneg b)

/-- Convolution of coefficient lists (`np.polymul`). -/
def polymul : List α → List α → List α
  | [], _ => []
  | a :: as, b => polyadd (b.map (a * ·) ++ List.replicate as.length 0) (polymul as b)

/-- Multiply each coefficient by a function of the power of `x` it
multiplies (the power of the head of a list `c :: l` is `l.length`). -/
def pencilMul (f : Nat → α) : List α → List α
  | [] => []
  | c :: l => c * f l.length :: pencilMul f l

/-- Derivative (`np.polyder`): drop the constant term after multiplying
each coefficient by its power. -/
def polyder (p : List α) : List α :=
  (pencilMul (fun pw => (pw : α)) p).dropLast

/-- The helper `_polysqr` from the source. -/
def polysqr (p : List α) : List α := polymul p p

/-- Real part of `j ^ p` as a function of the power `p` (the `rpencil`
mask of `_polyimsplit`: `+1` at powers `≡ 0 [MOD 4]`, `-1` at powers
`≡ 2 [MOD 4]`, `0` elsewhere). -/
def rcoef (p : Nat) : α :=
  if p % 4 = 0 then 1 else if p % 4 = 2 then -1 else 0

/-- Imaginary part of `j ^ p` (the `ipencil` mask of `_polyimsplit`). -/
def icoef (p : Nat) : α :=
  if p % 4 = 1 then 1 else if p % 4 = 3 then -1 else 0

/-- The splitter `_polyimsplit`: split a polynomial `P`, with `s = jω`
substituted,
into real and imaginary parts as real polynomials in `ω`. -/
def polyimsplit (pol : List α) : List α × List α :=
  (pencilMul rcoef pol, pencilMul icoef pol)

/-! Complex arithmetic over pairs `(re, im)`, used to embed the
`np.polyval(..., 1.j*w)` evaluations of the source. -/

/-- Complex addition on `(re, im)` pairs. -/
def cadd (x y : α × α) : α × α := (x.1 + y.1, x.2 + y.2)

/-- Complex multiplication on `(re, im)` pairs. -/
def cmul (x y : α × α) : α × α := (x.1 * y.1 - x.2 * y.2, x.1 * y.2 + x.2 * y.1)

/-- Complex power. -/
def cpow (x : α × α) : Nat → α × α
  | 0 => (1, 0)
  | n + 1 => cmul x (cpow x n)

/-- Complex-argument `np.polyval`. -/
def polyvalC (pol : List α) (x : α × α) : α × α :=
  pol.foldl (fun acc c => cadd (cmul acc x) (c, 0)) (0, 0)

/-- Real part of the frequency response `G(jω) = N(jω)/D(jω)`, i.e.
`np.real(np.polyval(num, 1j*w) / np.polyval(den, 1j*w))` (source lines
164-165 and the gain evaluation of `phase_crossover_frequencies`). -/
def reG (num den : List α) (w : α) : α :=
  let nv := polyvalC num (0, w)
  let dv := polyvalC den (0, w)
  (nv.1 * dv.1 + nv.2 * dv.2) / (dv.1 ^ 2 + dv.2 ^ 2)

/-! ### Correctness of the splitter (claim C4 machinery) -/

theorem pencilMul_length (f : Nat → α) : ∀ l : List α, (pencilMul f l).length = l.length
  | [] => rfl
  | _ :: l => by simp [pencilMul, pencilMul_length f l]

theorem polyval_foldl_shift (x : α) :
    ∀ (l : List α) (a : α),
      l.foldl (fun acc c => acc * x + c) a =
        a * x ^ l.length + l.foldl (fun acc c => acc * x + c) 0
  | [], a => by simp
  | c :: l, a => by
    rw [List.foldl_cons, List.foldl_cons, polyval_foldl_shift x l (a * x + c),
      polyval_foldl_shift x l (0 * x + c)]
    simp only [List.length_cons, pow_succ]
    ring

theorem polyval_cons (c : α) (l : List α) (x : α) :
    polyval (c :: l) x = c * x ^ l.length + polyval l x := by
  unfold polyval
  rw [List.foldl_cons, polyval_foldl_shift x l (0 * x + c)]
  ring

theorem polyvalC_foldl_shift (x : α × α) :
    ∀ (l : List α) (a : α × α),
      l.foldl (fun acc c => cadd (cmul acc x) (c, 0)) a =
        cadd (cmul a (cpow x l.length)) (l.foldl (fun acc c => cadd (cmul acc x) (c, 0)) (0, 0))
  | [], a => by simp [cpow, cmul, cadd]
  | c :: l, a => by
    rw [List.foldl_cons, List.foldl_cons,
      polyvalC_foldl_shift x l (cadd (cmul a x) (c, 0)),
      polyvalC_foldl_shift x l (cadd (cmul (0, 0) x) (c, 0))]
    simp only [cadd, cmul, cpow, List.length_cons, Prod.mk.injEq]
    exact ⟨by ring, by ring⟩

theorem polyvalC_cons (c : α) (l : List α) (x : α × α) :
    polyvalC (c :: l) x = cadd (cmul (c, 0) (cpow x l.length)) (polyvalC l x) := by
  unfold polyvalC
  rw [List.foldl_cons, polyvalC_foldl_shift x l (cadd (cmul (0, 0) x) (c, 0))]
  simp only [cadd, cmul, Prod.mk.injEq]
  exact ⟨by ring, by ring⟩

theorem rcoef_succ (p : Nat) : (rcoef (p + 1) : α) = -icoef p := by
  have h4 : p % 4 = 0 ∨ p % 4 = 1 ∨ p % 4 = 2 ∨ p % 4 = 3 := by omega
  have hs : (p + 1) % 4 = (p % 4 + 1) % 4 := by omega
  rcases h4 with h | h | h | h <;>
    simp [rcoef, icoef, hs, h]

theorem icoef_succ (p : Nat) : (icoef (p + 1) : α) = rcoef p := by
  have h4 : p % 4 = 0 ∨ p % 4 = 1 ∨ p % 4 = 2 ∨ p % 4 = 3 := by omega
  have hs : (p + 1) % 4 = (p % 4 + 1) % 4 := by omega
  rcases h4 with h | h | h | h <;>
    simp [rcoef, icoef, hs, h]

theorem cpow_j (w : α) : ∀ p : Nat, cpow (0, w) p = (w ^ p * rcoef p, w ^ p * icoef p)
  | 0 => by simp [cpow, rcoef, icoef]
  | p + 1 => by
    rw [cpow, cpow_j w p, rcoef_succ, icoef_succ]
    simp only [cmul, Prod.mk.injEq, pow_succ]
    exact ⟨by ring, by ring⟩

theorem polyimsplit_eval_pair (pol : List α) (w : α) :
    polyvalC pol (0, w) =
      (polyval (pencilMul rcoef pol) w, polyval (pencilMul icoef pol) w) := by
  induction pol with
  | nil => rfl
  | cons c l ih =>
    rw [polyvalC_cons, ih, pencilMul, pencilMul, polyval_cons, polyval_cons,
      pencilMul_length, pencilMul_length, cpow_j]
    simp only [cadd, cmul, Prod.mk.injEq]
    exact ⟨by ring, by ring⟩

/-- C4: for every real coefficient sequence `P` (highest degree first) and
every real `ω`, the two polynomials produced by `_polyimsplit`, evaluated
at `ω`, are the real and the imaginary part of `P(jω)`; the splitter is a
total function and both outputs have the same length as the input. -/
theorem polyimsplit_correct (pol : List ℝ) (w : ℝ) :
    polyval (polyimsplit pol).1 w = (polyvalC pol (0, w)).1 ∧
    polyval (polyimsplit pol).2 w = (polyvalC pol (0, w)).2 ∧
    (polyimsplit pol).1.length = pol.length ∧
    (polyimsplit pol).2.length = pol.length := by
  refine ⟨?_, ?_, pencilMul_length _ pol, pencilMul_length _ pol⟩ <;>
    rw [polyimsplit, polyimsplit_eval_pair pol w]

/-! ### Analytic path of `stability_margins`: candidate frequency sets -/

/-- The default `epsw` threshold of `stability_margins` (`1e-8`). -/
def epsw : α := 1 / 100000000

/-- Ascending in-place `ndarray.sort`. -/
def sortAsc (l : List α) : List α := l.insertionSort (· ≤ ·)

/-! Evaluation helpers: `List.replicate` applied to a numeric literal is
opaque to `simp`, so spell out the small instances that concrete
polynomial computations produce. -/

theorem replicateLit1 {β : Type} (a : β) : List.replicate 1 a = [a] := rfl

theorem replicateLit2 {β : Type} (a : β) : List.replicate 2 a = [a, a] := rfl

theorem replicateLit3 {β : Type} (a : β) : List.replicate 3 a = [a, a, a] := rfl

theorem replicateLit4 {β : Type} (a : β) : List.replicate 4 a = [a, a, a, a] := rfl

theorem replicateLit5 {β : Type} (a : β) : List.replicate 5 a = [a, a, a, a, a] := rfl

theorem replicateLit6 {β : Type} (a : β) : List.replicate 6 a = [a, a, a, a, a, a] := rfl

theorem replicateLit7 {β : Type} (a : β) : List.replicate 7 a = [a, a, a, a, a, a, a] := rfl

theorem replicateLit8 {β : Type} (a : β) : List.replicate 8 a = [a, a, a, a, a, a, a, a] := rfl

theorem replicateLit9 {β : Type} (a : β) : List.replicate 9 a = [a, a, a, a, a, a, a, a, a] := rfl

theorem replicateLit10 {β : Type} (a : β) :
    List.replicate 10 a = [a, a, a, a, a, a, a, a, a, a] := rfl

theorem replicateLit11 {β : Type} (a : β) :
    List.replicate 11 a = [a, a, a, a, a, a, a, a, a, a, a] := rfl

theorem replicateLit12 {β : Type} (a : β) :
    List.replicate 12 a = [a, a, a, a, a, a, a, a, a, a, a, a] := rfl

theorem mem_sortAsc {l : List α} {a : α} : a ∈ sortAsc l ↔ a ∈ l :=
  (List.perm_insertionSort _ l).mem_iff

theorem sorted_sortAsc (l : List α) : (sortAsc l).Sorted (· ≤ ·) :=
  List.sorted_insertionSort _ l

/-- The polynomial
`test_w_180 = np.polyadd(np.polymul(inum, rden), np.polymul(rnum, -iden))`
(source line 154): the imaginary part of `N(jω)·conj(D(jω))`. -/
def test_w_180 (num den : List α) : List α :=
  polyadd (polymul (polyimsplit num).2 (polyimsplit den).1)
    (polymul (polyimsplit num).1 (polyneg (polyimsplit den).2))

/-- Source lines 160-172: from the real roots delivered by `np.roots`,
keep `w ≥ epsw`, then keep those where `Re G(jω) < 0`, and sort. -/
def w180FromRoots (num den : List α) (roots : List α) : List α :=
  let w1 := roots.filter (fun w => decide (epsw ≤ w))
  let w2 := w1.filter (fun w => decide (reG num den w < 0))
  sortAsc w2

/-- The polynomial `test_wstab` (source lines 185-190): with
`testd = |D(jω)|²` and
`testn = |N(jω)+D(jω)|²` as polynomials in `ω`, the combination
`testn′·testd − testd′·testn`. -/
def test_wstab (num den : List α) : List α :=
  let rnum := (polyimsplit num).1
  let inum := (polyimsplit num).2
  let rden := (polyimsplit den).1
  let iden := (polyimsplit den).2
  let testd := polyadd (polysqr rden) (polysqr iden)
  let testn := polyadd (polysqr (polyadd rnum rden)) (polysqr (polyadd inum iden))
  polysub (polymul (polyder testn) testd) (polymul (polyder testd) testn)

/-- Source lines 193-205: from the real roots of `test_wstab`, keep the
non-negative ones, then those with `w > epsw` whose value of
`np.polyval(np.polyder(test_wstab), w)` is positive, and sort. -/
def wstabFromRoots (num den : List α) (roots : List α) : List α :=
  let t := test_wstab num den
  let w1 := roots.filter (fun w => decide (0 ≤ w))
  let w2 := w1.filter (fun w => decide (epsw < w) && decide (0 < polyval (polyder t) w))
  sortAsc w2

/-- The stability-margin candidate set as claim C2 words it: the second
derivative of the combined polynomial (`test_wstab` itself) must be
positive. -/
def wstabClaimSet (num den : List α) (roots : List α) : List α :=
  let t := test_wstab num den
  sortAsc (roots.filter (fun w =>
    decide (0 ≤ w) && decide (epsw < w) &&
      decide (0 < polyval (polyder (polyder t)) w)))

/-- C3: for real roots of `test_w_180`, the phase-crossover set keeps
exactly those with `ω ≥ epsw` whose response has negative real part, in
ascending order. -/
theorem w180FromRoots_spec (num den roots : List ℚ)
    (hroots : ∀ w ∈ roots, polyval (test_w_180 num den) w = 0) :
    (∀ w : ℚ, w ∈ w180FromRoots num den roots ↔
      w ∈ roots ∧ polyval (test_w_180 num den) w = 0 ∧ epsw ≤ w ∧ reG num den w < 0) ∧
    (w180FromRoots num den roots).Sorted (· ≤ ·) := by
  constructor
  · intro w
    unfold w180FromRoots
    rw [mem_sortAsc, List.mem_filter, List.mem_filter]
    simp only [decide_eq_true_eq]
    constructor
    · rintro ⟨⟨hw, h1⟩, h2⟩
      exact ⟨hw, hroots w hw, h1, h2⟩
    · rintro ⟨hw, _, h1, h2⟩
      exact ⟨⟨hw, h1⟩, h2⟩
  · exact sorted_sortAsc _

/-- Witness for C3 at the system `1/(s²+s+1)`, whose `test_w_180` is the
polynomial `-ω` with single real root `0`. -/
theorem w180FromRoots_spec_witness :
    (∀ w ∈ ([0] : List ℚ), polyval (test_w_180 [(1 : ℚ)] [1, 1, 1]) w = 0) ∧
    ((∀ w : ℚ, w ∈ w180FromRoots [(1 : ℚ)] [1, 1, 1] [0] ↔
      w ∈ ([0] : List ℚ) ∧ polyval (test_w_180 [(1 : ℚ)] [1, 1, 1]) w = 0 ∧
        epsw ≤ w ∧ reG [(1 : ℚ)] [1, 1, 1] w < 0) ∧
    (w180FromRoots [(1 : ℚ)] [1, 1, 1] [0]).Sorted (· ≤ ·)) := by
  have h : ∀ w ∈ ([0] : List ℚ), polyval (test_w_180 [(1 : ℚ)] [1, 1, 1]) w = 0 := by
    intro w hw
    rw [List.mem_singleton] at hw
    subst hw
    norm_num [test_w_180, polyimsplit, pencilMul, rcoef, icoef, polyadd, polymul,
      polyneg, polyval, List.replicate, replicateLit1, replicateLit2, replicateLit3,
      replicateLit4, replicateLit5, replicateLit6, replicateLit7, replicateLit8]
  exact ⟨h, w180FromRoots_spec [(1 : ℚ)] [1, 1, 1] [0] h⟩

/-- C2 (counterexample): for `G(s) = -1/(s²+2)` the combined polynomial
`test_wstab` is `-4ω⁵+12ω³-8ω = -4ω(ω²-1)(ω²-2)`; at its root `ω = 1` the
first derivative is `8 > 0` (so the code keeps it) but the second
derivative is `-8 < 0` (so the claim's filter would discard it): the
claimed set differs from the computed one. -/
theorem wstab_second_derivative_counterexample :
    polyval (test_wstab [(-1 : ℚ)] [1, 0, 2]) 1 = 0 ∧
    (0 : ℚ) < polyval (polyder (test_wstab [(-1 : ℚ)] [1, 0, 2])) 1 ∧
    polyval (polyder (polyder (test_wstab [(-1 : ℚ)] [1, 0, 2]))) 1 < 0 ∧
    wstabFromRoots [(-1 : ℚ)] [1, 0, 2] [1] = [1] ∧
    wstabClaimSet [(-1 : ℚ)] [1, 0, 2] [1] = [] := by
  refine ⟨?_, ?_, ?_, ?_, ?_⟩ <;>
    norm_num [test_wstab, wstabFromRoots, wstabClaimSet, polyimsplit, pencilMul,
      rcoef, icoef, polyadd, polysub, polyneg, polymul, polysqr, polyder, polyval,
      epsw, sortAsc, List.insertionSort, List.orderedInsert, List.filter,
      List.replicate, replicateLit1, replicateLit2, replicateLit3, replicateLit4,
      replicateLit5, replicateLit6, replicateLit7, replicateLit8, replicateLit9,
      replicateLit10, replicateLit11, replicateLit12]

/-- C2 amended: the stability-margin candidate set consists exactly of
the real, non-negative roots of `test_wstab` at which the FIRST
derivative of the combined polynomial is positive and `ω > epsw`, sorted
ascending. -/
theorem wstabFromRoots_spec (num den roots : List ℚ)
    (hroots : ∀ w ∈ roots, polyval (test_wstab num den) w = 0) :
    (∀ w : ℚ, w ∈ wstabFromRoots num den roots ↔
      w ∈ roots ∧ polyval (test_wstab num den) w = 0 ∧ 0 ≤ w ∧ epsw < w ∧
        0 < polyval (polyder (test_wstab num den)) w) ∧
    (wstabFromRoots num den roots).Sorted (· ≤ ·) := by
  constructor
  · intro w
    unfold wstabFromRoots
    rw [mem_sortAsc, List.mem_filter, List.mem_filter]
    simp only [Bool.and_eq_true, decide_eq_true_eq]
    constructor
    · rintro ⟨⟨hw, h0⟩, h1, h2⟩
      exact ⟨hw, hroots w hw, h0, h1, h2⟩
    · rintro ⟨hw, _, h0, h1, h2⟩
      exact ⟨⟨hw, h0⟩, h1, h2⟩
  · exact sorted_sortAsc _

/-- Witness for the amended C2 at `G(s) = -1/(s²+2)` with the rational
roots `1` and `0` of its `test_wstab`. -/
theorem wstabFromRoots_spec_witness :
    (∀ w ∈ ([1, 0] : List ℚ), polyval (test_wstab [(-1 : ℚ)] [1, 0, 2]) w = 0) ∧
    ((∀ w : ℚ, w ∈ wstabFromRoots [(-1 : ℚ)] [1, 0, 2] [1, 0] ↔
      w ∈ ([1, 0] : List ℚ) ∧ polyval (test_wstab [(-1 : ℚ)] [1, 0, 2]) w = 0 ∧
        0 ≤ w ∧ epsw < w ∧
        0 < polyval (polyder (test_wstab [(-1 : ℚ)] [1, 0, 2])) w) ∧
    (wstabFromRoots [(-1 : ℚ)] [1, 0, 2] [1, 0]).Sorted (· ≤ ·)) := by
  have h : ∀ w ∈ ([1, 0] : List ℚ), polyval (test_wstab [(-1 : ℚ)] [1, 0, 2]) w = 0 := by
    intro w hw
    rcases List.mem_cons.mp hw with h1 | h1
    · subst h1
      norm_num [test_wstab, polyimsplit, pencilMul, rcoef, icoef, polyadd,
        polysub, polyneg, polymul, polysqr, polyder, polyval, List.replicate,
        replicateLit1, replicateLit2, replicateLit3, replicateLit4, replicateLit5,
        replicateLit6, replicateLit7, replicateLit8, replicateLit9, replicateLit10,
        replicateLit11, replicateLit12]
    · rw [List.mem_singleton] at h1
      subst h1
      norm_num [test_wstab, polyimsplit, pencilMul, rcoef, icoef, polyadd,
        polysub, polyneg, polymul, polysqr, polyder, polyval, List.replicate,
        replicateLit1, replicateLit2, replicateLit3, replicateLit4, replicateLit5,
        replicateLit6, replicateLit7, replicateLit8, replicateLit9, replicateLit10,
        replicateLit11, replicateLit12]
  exact ⟨h, wstabFromRoots_spec [(-1 : ℚ)] [1, 0, 2] [1, 0] h⟩

/-! ### Reduced-mode output of `stability_margins` (source lines 254-269)
and the `margin` entry point (lines 350-359).

The six arrays `GM, PM, SM, w_180, wc, wstab` are exactly what
`returnall=True` hands back (line 261); the reduced mode is computed from
those same arrays, so consistency of the two modes is a property of the
reduction alone and is stated over the arrays. -/

/-- Minimum (`np.amin`) of a nonempty array (the `0` on `[]` is a placeholder the
source never evaluates, thanks to its `shape[0] or None` guard). -/
def amin : List α → α
  | [] => 0
  | a :: l => l.foldl min a

/-- numpy boolean-mask indexing `arr[mask]` for an equal-length mask. -/
def maskSel (mask : List Bool) (l : List α) : List α :=
  ((mask.zip l).filter (fun p => p.1)).map (fun p => p.2)

/-- The guarded value `(vals.shape[0] or None) and np.amin(vals)`
(lines 264-266): `None`
for an empty array, the minimum otherwise. -/
def reducedVal (vals : List α) : Option α :=
  if vals.length = 0 then none else some (amin vals)

/-- The guarded frequency
`(ws.shape[0] or None) and ws[vals == np.amin(vals)][0]`
(lines 267-269). -/
def reducedFreq (vals ws : List α) : Option α :=
  if ws.length = 0 then none
  else (maskSel (vals.map (fun v => decide (v = amin vals))) ws).head?

/-- The reduced six-tuple `(GM, PM, SM, w_180, wc, wstab)` returned by
`stability_margins` when `returnall` is false (lines 263-269). -/
def stabilityMarginsReduce (GM PM SM w180 wc wstab : List α) :
    Option α × Option α × Option α × Option α × Option α × Option α :=
  (reducedVal GM, reducedVal PM, reducedVal SM,
    reducedFreq GM w180, reducedFreq PM wc, reducedFreq SM wstab)

/-- The `margin` entry point (lines 350-359): components `0, 1, 3, 4` of
the reduced tuple, i.e. `(GM, PM, w_180-frequency, wc-frequency)`. -/
def margin (GM PM SM w180 wc wstab : List α) :
    Option α × Option α × Option α × Option α :=
  let m := stabilityMarginsReduce GM PM SM w180 wc wstab
  (m.1, m.2.1, m.2.2.2.1, m.2.2.2.2.1)

theorem foldl_min_le_init : ∀ (l : List α) (a : α), l.foldl min a ≤ a
  | [], _ => le_refl _
  | b :: l, a => le_trans (foldl_min_le_init l (min a b)) (min_le_left a b)

theorem foldl_min_le_mem : ∀ (l : List α) (a x : α), x ∈ l → l.foldl min a ≤ x
  | b :: l, a, x, hx => by
    rcases List.mem_cons.mp hx with h | h
    · subst h
      exact le_trans (foldl_min_le_init l (min a x)) (min_le_right a x)
    · exact foldl_min_le_mem l (min a b) x h

theorem foldl_min_cases : ∀ (l : List α) (a : α), l.foldl min a = a ∨ l.foldl min a ∈ l
  | [], a => Or.inl rfl
  | b :: l, a => by
    rcases foldl_min_cases l (min a b) with h | h
    · rcases min_choice a b with hm | hm
      · exact Or.inl (by rw [List.foldl_cons, h, hm])
      · exact Or.inr (by rw [List.foldl_cons, h, hm]; exact List.mem_cons_self b l)
    · exact Or.inr (List.mem_cons_of_mem b h)

theorem amin_mem (l : List α) (h : l ≠ []) : amin l ∈ l := by
  cases l with
  | nil => exact absurd rfl h
  | cons a t =>
    rcases foldl_min_cases t a with h1 | h1
    · rw [amin, h1]; exact List.mem_cons_self a t
    · exact List.mem_cons_of_mem a h1

theorem amin_le (l : List α) : ∀ x ∈ l, amin l ≤ x := by
  cases l with
  | nil => intro x hx; exact absurd hx (List.not_mem_nil x)
  | cons a t =>
    intro x hx
    rcases List.mem_cons.mp hx with h | h
    · subst h; exact foldl_min_le_init t x
    · exact foldl_min_le_mem t a x h

/-- Selecting with a boolean mask and taking element `[0]` returns the
frequency at the first index where the mask holds. -/
theorem maskSel_head (p : α → Bool) :
    ∀ (vals ws : List α), ws.length = vals.length →
      (∃ v ∈ vals, p v = true) →
      ∃ i, i < vals.length ∧
        (∀ j, j < i → ∀ vj, vals[j]? = some vj → p vj = false) ∧
        (∃ vi, vals[i]? = some vi ∧ p vi = true) ∧
        (maskSel (vals.map p) ws).head? = ws[i]?
  | [], _, _, hex => by simp at hex
  | _ :: _, [], h, _ => by simp at h
  | v :: vs, w :: wst, h, hex => by
    by_cases hp : p v = true
    · refine ⟨0, by simp, fun j hj => absurd hj (Nat.not_lt_zero j), ⟨v, by simp, hp⟩, ?_⟩
      simp [maskSel, hp]
    · have hp' : p v = false := Bool.eq_false_iff.mpr hp
      have hex' : ∃ x ∈ vs, p x = true := by
        rcases hex with ⟨x, hx, hpx⟩
        rcases List.mem_cons.mp hx with h1 | h1
        · exact absurd (h1 ▸ hpx) hp
        · exact ⟨x, h1, hpx⟩
      obtain ⟨i, hi, hfirst, hat, hhead⟩ :=
        maskSel_head p vs wst (by simpa using h) hex'
      refine ⟨i + 1, by simpa using hi, ?_, ?_, ?_⟩
      · intro j hj vj hvj
        cases j with
        | zero =>
          rw [List.getElem?_cons_zero] at hvj
          cases Option.some.inj hvj
          exact hp'
        | succ j' =>
          rw [List.getElem?_cons_succ] at hvj
          exact hfirst j' (by omega) vj hvj
      · obtain ⟨vi, h1, h2⟩ := hat
        exact ⟨vi, by rw [List.getElem?_cons_succ]; exact h1, h2⟩
      · have hm : maskSel ((v :: vs).map p) (w :: wst) = maskSel (vs.map p) wst := by
          simp [maskSel, hp']
        rw [hm, hhead, List.getElem?_cons_succ]

/-- What claim C1 asserts of one `(margin array, frequency array)` pair
of the reduced mode: empty arrays give the `None` sentinel; otherwise the
reduced value is the array minimum and the reduced frequency is the
frequency at the first index where the margin array attains it. -/
def reducedPairSpec (vals ws : List α) : Prop :=
  (vals = [] → reducedVal vals = none) ∧
  (ws = [] → reducedFreq vals ws = none) ∧
  (vals ≠ [] →
    reducedVal vals = some (amin vals) ∧ amin vals ∈ vals ∧
      (∀ x ∈ vals, amin vals ≤ x) ∧
      ∃ i, i < vals.length ∧
        (∀ j, j < i → vals[j]? ≠ some (amin vals)) ∧
        vals[i]? = some (amin vals) ∧
        reducedFreq vals ws = ws[i]?)

theorem reducedPair_of_length (vals ws : List α) (h : ws.length = vals.length) :
    reducedPairSpec vals ws := by
  refine ⟨?_, ?_, ?_⟩
  · intro he; subst he; rfl
  · intro he; subst he; rfl
  · intro hne
    have hlen : vals.length ≠ 0 := fun h0 => hne (List.length_eq_zero.mp h0)
    have hwlen : ws.length ≠ 0 := h ▸ hlen
    refine ⟨by simp [reducedVal, hlen], amin_mem vals hne, amin_le vals, ?_⟩
    obtain ⟨i, hi, hfirst, hat, hhead⟩ :=
      maskSel_head (fun v => decide (v = amin vals)) vals ws h
        ⟨amin vals, amin_mem vals hne, by simp⟩
    refine ⟨i, hi, ?_, ?_, ?_⟩
    · intro j hj heq
      have := hfirst j hj (amin vals) heq
      simp at this
    · obtain ⟨vi, h1, h2⟩ := hat
      rw [h1]
      have : vi = amin vals := by simpa using h2
      rw [this]
    · rw [reducedFreq, if_neg hwlen]
      exact hhead

/-- C1: the reduced (default) mode of `stability_margins` is consistent
with the all-crossovers mode: each reduced GM/PM/SM value is the minimum
of the corresponding full array, each reduced frequency is the element of
the corresponding frequency array at the first index where the margin
array attains that minimum, and empty arrays produce the `None`
sentinel.  The margin arrays are evaluations at their frequency arrays,
hence the pairwise equal lengths. -/
theorem stability_margins_reduce_consistent
    (GM PM SM w180 wc wstab : List ℚ)
    (h1 : w180.length = GM.length) (h2 : wc.length = PM.length)
    (h3 : wstab.length = SM.length) :
    stabilityMarginsReduce GM PM SM w180 wc wstab =
      (reducedVal GM, reducedVal PM, reducedVal SM,
        reducedFreq GM w180, reducedFreq PM wc, reducedFreq SM wstab) ∧
    reducedPairSpec GM w180 ∧ reducedPairSpec PM wc ∧ reducedPairSpec SM wstab :=
  ⟨rfl, reducedPair_of_length GM w180 h1, reducedPair_of_length PM wc h2,
    reducedPair_of_length SM wstab h3⟩

/-- Witness for C1 on concrete arrays, including a tie in the GM array
(first-match selection) and an empty SM/wstab pair (sentinel case). -/
theorem stability_margins_reduce_consistent_witness :
    (([10, 20, 30] : List ℚ).length = ([3, 1, 1] : List ℚ).length ∧
      ([7] : List ℚ).length = ([5] : List ℚ).length ∧
      ([] : List ℚ).length = ([] : List ℚ).length) ∧
    (stabilityMarginsReduce [(3 : ℚ), 1, 1] [5] [] [10, 20, 30] [7] [] =
      (reducedVal [(3 : ℚ), 1, 1], reducedVal [(5 : ℚ)], reducedVal ([] : List ℚ),
        reducedFreq [(3 : ℚ), 1, 1] [10, 20, 30], reducedFreq [(5 : ℚ)] [7],
        reducedFreq ([] : List ℚ) []) ∧
    reducedPairSpec [(3 : ℚ), 1, 1] [10, 20, 30] ∧ reducedPairSpec [(5 : ℚ)] [7] ∧
    reducedPairSpec ([] : List ℚ) []) :=
  ⟨⟨by decide, by decide, by decide⟩,
    stability_margins_reduce_consistent [3, 1, 1] [5] [] [10, 20, 30] [7] []
      (by decide) (by decide) (by decide)⟩

/-- C6 (counterexample): `margin` returns `margin[3]` — the reduced
`w_180` (phase-crossover, −180°) frequency — as its THIRD element and the
reduced `wc` (gain-crossover, `|G|=1`) frequency as its FOURTH, not the
other way round as the claim asserts.  With distinct frequencies `3`
(`w_180`) and `5` (`wc`) the third element is `3`, not the gain-crossover
frequency `5`. -/
theorem margin_order_counterexample :
    margin [(2 : ℚ)] [30] [1] [3] [5] [7] = (some 2, some 30, some 3, some 5) ∧
    reducedFreq [(30 : ℚ)] [5] = some 5 ∧
    reducedFreq [(2 : ℚ)] [3] = some 3 ∧
    (margin [(2 : ℚ)] [30] [1] [3] [5] [7]).2.2.1 ≠ reducedFreq [(30 : ℚ)] [5] := by
  refine ⟨?_, ?_, ?_, ?_⟩ <;>
    norm_num [margin, stabilityMarginsReduce, reducedVal, reducedFreq, amin,
      maskSel, List.filter]

/-- C6 amended: `margin` returns `(GM, PM, w_gm, w_pm)` where the THIRD
element is the reduced phase-crossover (−180°) frequency, at which GM is
measured, and the FOURTH is the reduced gain-crossover (`|G|=1`)
frequency, at which PM is measured; both reductions satisfy the
minimum/first-index characterization. -/
theorem margin_components (GM PM SM w180 wc wstab : List ℚ)
    (h1 : w180.length = GM.length) (h2 : wc.length = PM.length) :
    margin GM PM SM w180 wc wstab =
      (reducedVal GM, reducedVal PM, reducedFreq GM w180, reducedFreq PM wc) ∧
    reducedPairSpec GM w180 ∧ reducedPairSpec PM wc :=
  ⟨rfl, reducedPair_of_length GM w180 h1, reducedPair_of_length PM wc h2⟩

/-- Witness for the amended C6 on concrete arrays. -/
theorem margin_components_witness :
    (([3] : List ℚ).length = ([2] : List ℚ).length ∧
      ([5] : List ℚ).length = ([30] : List ℚ).length) ∧
    (margin [(2 : ℚ)] [30] [1] [3] [5] [7] =
      (reducedVal [(2 : ℚ)], reducedVal [(30 : ℚ)],
        reducedFreq [(2 : ℚ)] [3], reducedFreq [(30 : ℚ)] [5]) ∧
    reducedPairSpec [(2 : ℚ)] [3] ∧ reducedPairSpec [(30 : ℚ)] [5]) :=
  ⟨⟨by decide, by decide⟩,
    margin_components [2] [30] [1] [3] [5] [7] (by decide) (by decide)⟩

/-! ### Sampled path of `stability_margins` (source lines 207-251)

The scipy refiners (`brentq`, `minimize_scalar`) are numerical oracles;
they are modelled as functions of the bracket index.  A raised exception
is `none` / `Except.error`; a Python list comprehension aborts at the
first raised exception, which the `Except`-valued recursion mirrors. -/

/-- Successive differences (`np.diff`). -/
def npDiff (l : List α) : List α := List.zipWith (fun x y => y - x) l l.tail

/-- Sign function (`np.sign`). -/
def npSign (x : α) : α := if x < 0 then -1 else if x = 0 then 0 else 1

/-- Indices of the nonzero entries, ascending (`np.where(arr)[0]`). -/
def whereNonzero (l : List α) : List Nat :=
  (l.enum.filter (fun p => decide (p.2 ≠ 0))).map (fun p => p.1)

/-- Python slice `l[a:b]` (step 1) with negative-index wrapping. -/
def pySlice (l : List α) (a b : Int) : List α :=
  let n : Int := l.length
  let s : Int := if a < 0 then max (n + a) 0 else min a n
  let e : Int := if b < 0 then max (n + b) 0 else min b n
  (l.drop s.toNat).take (e - s).toNat

/-- Line 223 / 229 / 241 bracket detection applied to the stability
distance: `np.where(np.diff(np.sign(np.diff(d))))[0]`, where `d` is the
list of `dstab(omega) = |G(ω)+1|` samples over the frequency grid. -/
def stabBrackets (d : List α) : List Nat :=
  whereNonzero (npDiff ((npDiff d).map npSign))

/-- The second condition of the comprehension filter on line 246-247:
`np.diff(np.diff(dstab(sys.omega[i-1:i+2])))[0]`.  `dstab` acts
pointwise, so slicing the grid then sampling equals slicing the sample
list `d`; `none` models the `IndexError` raised when the double
difference of the slice is empty. -/
def secondDiffCheck (d : List α) (i : Nat) : Option α :=
  (npDiff (npDiff (pySlice d ((i : Int) - 1) ((i : Int) + 2))))[0]?

/-- Lines 244-247: the sampled-path `wstab` comprehension.  `g i` models
`sp.optimize.minimize_scalar(dstab, bracket=(omega[i], omega[i+1])).x`;
`d.length` is the grid length (one `dstab` sample per grid point).  An
`IndexError` from the guard aborts the whole comprehension. -/
def wstabSampled (d : List α) (g : Nat → α) : List Nat → Except Unit (List α)
  | [] => .ok []
  | i :: rest =>
    if i + 1 < d.length then
      match secondDiffCheck d i with
      | none => .error ()
      | some v =>
        if 0 < v then (wstabSampled d g rest).map (fun ws => g i :: ws)
        else wstabSampled d g rest
    else wstabSampled d g rest

/-- Lines 223-226 (and, with the same comprehension shape, 229-236): the
sampled-path crossover refinement.  `f i` models
`sp.optimize.brentq(..., omega[i], omega[i+1])`, `none` being a raised
failure, which aborts the comprehension. -/
def refineBrackets (n : Nat) (f : Nat → Option α) : List Nat → Except Unit (List α)
  | [] => .ok []
  | i :: rest =>
    if i + 1 < n then
      match f i with
      | none => .error ()
      | some x => (refineBrackets n f rest).map (fun xs => x :: xs)
    else refineBrackets n f rest

/-- What claim C8 asserts: a failing refinement is silently dropped, as
if that bracket held no crossover. -/
def refineBracketsDropping (n : Nat) (f : Nat → Option α) (widx : List Nat) : List α :=
  (widx.filter (fun i => decide (i + 1 < n))).filterMap f

/-- C8 (counterexample): with a two-point grid, one bracket and a
refiner that fails to converge, the comprehension raises — the result is
an error, not the empty candidate list the claim's silent dropping would
produce. -/
theorem refineBrackets_drop_counterexample :
    refineBrackets 2 (fun _ => (none : Option ℚ)) [0] = Except.error () ∧
    refineBracketsDropping 2 (fun _ => (none : Option ℚ)) [0] = [] ∧
    refineBrackets 2 (fun _ => (none : Option ℚ)) [0] ≠
      Except.ok (refineBracketsDropping 2 (fun _ => (none : Option ℚ)) [0]) := by
  refine ⟨rfl, rfl, ?_⟩
  intro h
  exact Except.noConfusion h

/-- C8 amended: a refinement failure inside an admissible bracket makes
the whole computation raise — the exception propagates to the caller —
and these failures are the only source of errors; no candidate is
silently dropped. -/
theorem refineBrackets_error_iff (n : Nat) (f : Nat → Option ℚ) (widx : List Nat) :
    refineBrackets n f widx = Except.error () ↔
      ∃ i ∈ widx, i + 1 < n ∧ f i = none := by
  induction widx with
  | nil => simp [refineBrackets]
  | cons i rest ih =>
    rw [refineBrackets]
    by_cases hg : i + 1 < n
    · rw [if_pos hg]
      cases hf : f i with
      | none => simp [hg, hf]
      | some x =>
        constructor
        · intro h
          cases hr : refineBrackets n f rest with
          | error e =>
            obtain ⟨j, hj, hjn, hjf⟩ := ih.mp (by rw [hr])
            exact ⟨j, List.mem_cons_of_mem i hj, hjn, hjf⟩
          | ok xs => rw [hr] at h; exact absurd h (by simp [Except.map])
        · rintro ⟨j, hj, hjn, hjf⟩
          rcases List.mem_cons.mp hj with h1 | h1
          · subst h1; rw [hjf] at hf; exact Option.noConfusion hf
          · rw [ih.mpr ⟨j, h1, hjn, hjf⟩]; rfl
    · rw [if_neg hg, ih]
      constructor
      · rintro ⟨j, hj, hjn, hjf⟩
        exact ⟨j, List.mem_cons_of_mem i hj, hjn, hjf⟩
      · rintro ⟨j, hj, hjn, hjf⟩
        rcases List.mem_cons.mp hj with h1 | h1
        · subst h1; exact absurd hjn hg
        · exact ⟨j, h1, hjn, hjf⟩

theorem npDiff_length (l : List α) : (npDiff l).length = l.length - 1 := by
  rw [npDiff, List.length_zipWith, List.length_tail]
  omega

theorem mem_whereNonzero_lt {l : List α} {i : Nat} (h : i ∈ whereNonzero l) :
    i < l.length := by
  rw [whereNonzero] at h
  obtain ⟨p, hp, hpi⟩ := List.mem_map.mp h
  have hp' := List.mem_of_mem_filter hp
  have := List.fst_lt_of_mem_enum hp'
  omega

theorem wstabSampled_error_of_mem (d : List ℚ) (g : Nat → ℚ) :
    ∀ (widx : List Nat) (i : Nat), i ∈ widx → i + 1 < d.length →
      secondDiffCheck d i = none → wstabSampled d g widx = Except.error ()
  | [], i, hi, _, _ => absurd hi (List.not_mem_nil i)
  | j :: rest, i, hi, hn, hc => by
    rw [wstabSampled]
    rcases List.mem_cons.mp hi with h1 | h1
    · subst h1
      simp [if_pos hn, hc]
    · have hrec := wstabSampled_error_of_mem d g rest i h1 hn hc
      by_cases hg : j + 1 < d.length
      · rw [if_pos hg]
        cases hcj : secondDiffCheck d j with
        | none => rfl
        | some v =>
          dsimp only
          by_cases hv : 0 < v
          · rw [if_pos hv, hrec]; rfl
          · rw [if_neg hv]; exact hrec
      · rw [if_neg hg]; exact hrec

/-- C9: when the sampled-path stability-margin sign-change detection
yields a bracket at grid index `0`, the filter slices the grid as
`omega[-1:2]`, which is empty, and indexing the double difference of the
empty slice raises an `IndexError`: the whole comprehension errors
instead of returning a candidate list. -/
theorem stab_bracket_zero_raises (d : List ℚ) (g : Nat → ℚ)
    (h0 : 0 ∈ stabBrackets d) :
    pySlice d (-1) 2 = [] ∧
    secondDiffCheck d 0 = none ∧
    wstabSampled d g (stabBrackets d) = Except.error () := by
  have hlen : 3 ≤ d.length := by
    have h1 := mem_whereNonzero_lt h0
    rw [npDiff_length, List.length_map, npDiff_length] at h1
    omega
  have hslice : pySlice d (-1) 2 = [] := by
    rw [pySlice]
    have hc1 : ((-1 : Int) < 0) = True := by simp
    have hc2 : ¬((2 : Int) < 0) := by omega
    rw [if_pos (by omega : (-1 : Int) < 0), if_neg hc2]
    have hmax : max ((d.length : Int) + -1) 0 = (d.length : Int) + -1 :=
      max_eq_left (by omega)
    have hmin : min (2 : Int) (d.length : Int) = 2 := min_eq_left (by omega)
    rw [hmax, hmin]
    have : ((2 : Int) - ((d.length : Int) + -1)).toNat = 0 := by omega
    rw [this, List.take_zero]
  have hcheck : secondDiffCheck d 0 = none := by
    rw [secondDiffCheck]
    norm_num [hslice, npDiff]
  exact ⟨hslice, hcheck,
    wstabSampled_error_of_mem d g (stabBrackets d) 0 h0 (by omega) hcheck⟩

/-- Witness for C9: the distance samples `[5, 1, 3, 2, 4]` put a
sign-change bracket at index `0`, and the comprehension errors. -/
theorem stab_bracket_zero_raises_witness :
    (0 ∈ stabBrackets ([5, 1, 3, 2, 4] : List ℚ)) ∧
    (pySlice ([5, 1, 3, 2, 4] : List ℚ) (-1) 2 = [] ∧
      secondDiffCheck ([5, 1, 3, 2, 4] : List ℚ) 0 = none ∧
      wstabSampled ([5, 1, 3, 2, 4] : List ℚ) (fun _ => 0)
        (stabBrackets ([5, 1, 3, 2, 4] : List ℚ)) = Except.error ()) := by
  have h0 : 0 ∈ stabBrackets ([5, 1, 3, 2, 4] : List ℚ) := by
    norm_num [stabBrackets, whereNonzero, npDiff, npSign, List.enum, List.enumFrom,
      List.filter]
  exact ⟨h0, stab_bracket_zero_raises [5, 1, 3, 2, 4] (fun _ => 0) h0⟩

/-! ### `phase_crossover_frequencies` (source lines 274-315) -/

/-- Pointwise complex padding addition (numpy `polyadd` on complex
arrays). -/
def polyaddC (a b : List (α × α)) : List (α × α) :=
  (List.replicate (max a.length b.length - a.length) (0, 0) ++ a).zipWith cadd
    (List.replicate (max a.length b.length - b.length) (0, 0) ++ b)

/-- Convolution (`np.polymul`) on complex coefficient lists. -/
def polymulC : List (α × α) → List (α × α) → List (α × α)
  | [], _ => []
  | a :: as, b => polyaddC (b.map (cmul a) ++ List.replicate as.length (0, 0)) (polymulC as b)

/-- Complex coefficients times `f` of their power (as `pencilMul`). -/
def pencilMulC (f : Nat → α × α) : List α → List (α × α)
  | [] => []
  | c :: l => cmul (c, 0) (f l.length) :: pencilMulC f l

/-- The array `numj = (1.j)**np.arange(len(num)-1,-1,-1) * num`
(line 305): each
coefficient times `j ^ power`. -/
def numjOf (num : List α) : List (α × α) :=
  pencilMulC (fun p => (rcoef p, icoef p)) num

/-- The array `denj = (-1.j)**np.arange(len(den)-1,-1,-1) * den`
(line 306): each
coefficient times `(-j) ^ power = conj(j ^ power)`. -/
def denjOf (den : List α) : List (α × α) :=
  pencilMulC (fun p => (rcoef p, -icoef p)) den

/-- The imaginary part `np.imag(np.polymul(numj, denj))` (line 307):
the polynomial in `ω`
whose real roots are the real-axis crossings. -/
def crossPoly (num den : List α) : List α :=
  (polymulC (numjOf num) (denjOf den)).map (fun c => c.2)

/-- Lines 308-315 downstream of `np.roots`: from the real roots of
`crossPoly` (the oracle output), keep the non-negative ones — in the
root-finder's order, no sorting — and evaluate the real part of the
response there as the gains. -/
def phase_crossover_frequencies (num den : List α) (roots : List α) :
    List α × List α :=
  let realposfreq := roots.filter (fun f => decide (0 ≤ f))
  (realposfreq, realposfreq.map (reG num den))

/-- C7 (amended): the two output arrays have equal length and
all returned frequencies are non-negative. -/
theorem phase_crossover_shape (num den roots : List ℝ) :
    (phase_crossover_frequencies num den roots).1.length =
      (phase_crossover_frequencies num den roots).2.length ∧
    ∀ f ∈ (phase_crossover_frequencies num den roots).1, 0 ≤ f := by
  constructor
  · rw [phase_crossover_frequencies]
    exact (List.length_map _ _).symm
  · intro f hf
    rw [phase_crossover_frequencies] at hf
    have := List.of_mem_filter hf
    simpa using this

/-! Shared computations for the `1/(s³+2s²+3s+4)` example (the docstring
example of the source, spec §8). -/

theorem crossPoly_example : crossPoly [(1 : ℝ)] [1, 2, 3, 4] = [1, 0, -3, 0] := by
  norm_num [crossPoly, numjOf, denjOf, pencilMulC, polymulC, polyaddC, cmul, cadd,
    rcoef, icoef, List.replicate, replicateLit1, replicateLit2, replicateLit3,
    replicateLit4]

theorem polyval_example_cubic (x : ℝ) :
    polyval [(1 : ℝ), 0, -3, 0] x = x * (x - Real.sqrt 3) * (x + Real.sqrt 3) := by
  have hs : Real.sqrt 3 * Real.sqrt 3 = 3 :=
    Real.mul_self_sqrt (by norm_num)
  simp only [polyval, List.foldl_cons, List.foldl_nil]
  linear_combination x * hs

theorem sqrt_three_pos : (0 : ℝ) < Real.sqrt 3 := Real.sqrt_pos.mpr (by norm_num)

theorem crossPoly_example_roots (x : ℝ) :
    polyval (crossPoly [(1 : ℝ)] [1, 2, 3, 4]) x = 0 ↔
      x = Real.sqrt 3 ∨ x = 0 ∨ x = -Real.sqrt 3 := by
  rw [crossPoly_example, polyval_example_cubic]
  constructor
  · intro h
    rcases mul_eq_zero.mp h with h1 | h1
    · rcases mul_eq_zero.mp h1 with h2 | h2
      · exact Or.inr (Or.inl h2)
      · exact Or.inl (by linarith [sub_eq_zero.mp h2])
    · exact Or.inr (Or.inr (by linarith [add_eq_zero_iff_eq_neg.mp h1]))
  · rintro (h | h | h) <;> subst h <;> ring

/-- The gain at `ω = √3`: `G(j√3) = -1/2`. -/
theorem reG_example_sqrt3 : reG [(1 : ℝ)] [1, 2, 3, 4] (Real.sqrt 3) = -(1 / 2) := by
  have hs : Real.sqrt 3 * Real.sqrt 3 = 3 :=
    Real.mul_self_sqrt (by norm_num)
  have h6 : (2 : ℝ) * Real.sqrt 3 * Real.sqrt 3 = 6 := by
    rw [mul_assoc, hs]; norm_num
  simp only [reG, polyvalC, List.foldl_cons, List.foldl_nil, cadd, cmul]
  norm_num [h6]

/-- The gain at `ω = 0`: `G(0) = 1/4`. -/
theorem reG_example_zero : reG [(1 : ℝ)] [1, 2, 3, 4] 0 = 1 / 4 := by
  simp only [reG, polyvalC, List.foldl_cons, List.foldl_nil, cadd, cmul]
  norm_num

theorem zip_self_map {γ β : Type} (g : γ → β) :
    ∀ l : List γ, l.zip (l.map g) = l.map (fun a => (a, g a))
  | [] => rfl
  | a :: l => by
    simp only [List.map_cons, List.zip_cons_cons, zip_self_map g l]

/-- C5: for `1/(s³+2s²+3s+4)`, whenever the root oracle reports exactly
the real roots of the crossing polynomial (without repetition),
`phase_crossover_frequencies` returns exactly the two crossings
`(√3, -0.5)` and `(0, 0.25)`. -/
theorem phase_crossover_example (roots : List ℝ) (hnd : roots.Nodup)
    (hroots : ∀ x : ℝ, x ∈ roots ↔ polyval (crossPoly [(1 : ℝ)] [1, 2, 3, 4]) x = 0) :
    ((phase_crossover_frequencies [(1 : ℝ)] [1, 2, 3, 4] roots).1.zip
        (phase_crossover_frequencies [(1 : ℝ)] [1, 2, 3, 4] roots).2).Perm
      [(Real.sqrt 3, -(1 / 2)), (0, 1 / 4)] := by
  have h3 := sqrt_three_pos
  rw [phase_crossover_frequencies]
  rw [zip_self_map]
  have hperm : (roots.filter (fun f => decide (0 ≤ f))).Perm [Real.sqrt 3, 0] := by
    rw [List.perm_ext_iff_of_nodup (List.Nodup.filter _ hnd)
      (by simp [List.nodup_cons, h3.ne'])]
    intro a
    rw [List.mem_filter, hroots a, crossPoly_example_roots a]
    constructor
    · rintro ⟨h | h | h, hge⟩
      · subst h; exact List.mem_cons_self _ _
      · subst h; exact List.mem_cons_of_mem _ (List.mem_singleton.mpr rfl)
      · subst h
        have : (0 : ℝ) ≤ -Real.sqrt 3 := of_decide_eq_true hge
        linarith
    · intro ha
      rcases List.mem_cons.mp ha with h | h
      · subst h; exact ⟨Or.inl rfl, by simp [h3.le]⟩
      · rw [List.mem_singleton] at h; subst h
        exact ⟨Or.inr (Or.inl rfl), by simp⟩
  have := hperm.map (fun a => (a, reG [(1 : ℝ)] [1, 2, 3, 4] a))
  rw [List.map_cons, List.map_cons, List.map_nil, reG_example_sqrt3,
    reG_example_zero] at this
  exact this

/-- Witness for C5 with the oracle output ordered as numpy's root finder
documents it (`array([1.732…, 0.])` after the non-negativity filter). -/
theorem phase_crossover_example_witness :
    (([Real.sqrt 3, 0, -Real.sqrt 3] : List ℝ).Nodup ∧
      (∀ x : ℝ, x ∈ ([Real.sqrt 3, 0, -Real.sqrt 3] : List ℝ) ↔
        polyval (crossPoly [(1 : ℝ)] [1, 2, 3, 4]) x = 0)) ∧
    ((phase_crossover_frequencies [(1 : ℝ)] [1, 2, 3, 4]
          [Real.sqrt 3, 0, -Real.sqrt 3]).1.zip
        (phase_crossover_frequencies [(1 : ℝ)] [1, 2, 3, 4]
          [Real.sqrt 3, 0, -Real.sqrt 3]).2).Perm
      [(Real.sqrt 3, -(1 / 2)), (0, 1 / 4)] := by
  have h3 := sqrt_three_pos
  have hne2 : Real.sqrt 3 ≠ -Real.sqrt 3 := by
    intro h; linarith
  have hne3 : (0 : ℝ) ≠ -Real.sqrt 3 := by
    intro h; linarith
  have hnd : ([Real.sqrt 3, 0, -Real.sqrt 3] : List ℝ).Nodup := by
    simp [List.nodup_cons, h3.ne', hne2, hne3]
  have hroots : ∀ x : ℝ, x ∈ ([Real.sqrt 3, 0, -Real.sqrt 3] : List ℝ) ↔
      polyval (crossPoly [(1 : ℝ)] [1, 2, 3, 4]) x = 0 := by
    intro x
    rw [crossPoly_example_roots x]
    simp
  exact ⟨⟨hnd, hroots⟩, phase_crossover_example [Real.sqrt 3, 0, -Real.sqrt 3] hnd hroots⟩

/-- C7 (counterexample): on the source's own docstring example the
returned frequency array is `[√3, 0]` — the oracle's order with the
negative root filtered out, not sorted ascending. -/
theorem phase_crossover_not_sorted :
    (∀ x : ℝ, x ∈ ([Real.sqrt 3, 0, -Real.sqrt 3] : List ℝ) ↔
      polyval (crossPoly [(1 : ℝ)] [1, 2, 3, 4]) x = 0) ∧
    (phase_crossover_frequencies [(1 : ℝ)] [1, 2, 3, 4]
        [Real.sqrt 3, 0, -Real.sqrt 3]).1 = [Real.sqrt 3, 0] ∧
    ¬ List.Sorted (· ≤ ·)
        (phase_crossover_frequencies [(1 : ℝ)] [1, 2, 3, 4]
          [Real.sqrt 3, 0, -Real.sqrt 3]).1 := by
  have h3 := sqrt_three_pos
  have hneg : ¬((0 : ℝ) ≤ -Real.sqrt 3) := by
    rw [not_le]
    exact neg_neg_of_pos h3
  have hfil : (phase_crossover_frequencies [(1 : ℝ)] [1, 2, 3, 4]
      [Real.sqrt 3, 0, -Real.sqrt 3]).1 = [Real.sqrt 3, 0] := by
    rw [phase_crossover_frequencies]
    simp [List.filter, h3.le, hneg]
  refine ⟨?_, hfil, ?_⟩
  · intro x
    rw [crossPoly_example_roots x]
    simp
  · rw [hfil]
    intro hsort
    have := (List.sorted_cons.mp hsort).1 0 (List.mem_singleton.mpr rfl)
    linarith

/-! ### `phase_crossover_frequencies` on multi-channel systems (C10) -/

/-- A transfer-function object as the source sees it: `tf.num` and
`tf.den` are outputs×inputs matrices of coefficient lists. -/
structure TransferFun (γ : Type) where
  num : List (List (List γ))
  den : List (List (List γ))

/-- Lines 296-313: no SISO check — `tf.num[0][0]` and `tf.den[0][0]`
alone feed the computation, whatever the other channels hold. -/
def phaseCrossoverFrequenciesTF (tf : TransferFun α) (roots : List α) :
    List α × List α :=
  phase_crossover_frequencies tf.num.headI.headI tf.den.headI.headI roots

/-- C10: `phase_crossover_frequencies` raises no SISO error on a
multi-channel transfer function (the embedding is a total function of
the object) and its result depends only on the `(0,0)`
numerator/denominator entry: every other channel is ignored. -/
theorem phase_crossover_mimo_ignores_channels (tf₁ tf₂ : TransferFun ℚ)
    (roots : List ℚ)
    (hn : tf₁.num.headI.headI = tf₂.num.headI.headI)
    (hd : tf₁.den.headI.headI = tf₂.den.headI.headI) :
    phaseCrossoverFrequenciesTF tf₁ roots = phaseCrossoverFrequenciesTF tf₂ roots ∧
    phaseCrossoverFrequenciesTF tf₁ roots =
      phase_crossover_frequencies tf₁.num.headI.headI tf₁.den.headI.headI roots := by
  unfold phaseCrossoverFrequenciesTF
  rw [hn, hd]
  exact ⟨rfl, rfl⟩

/-- Witness for C10: a 2×2 transfer function and the SISO system of its
`(0,0)` element produce identical results. -/
theorem phase_crossover_mimo_witness :
    ((TransferFun.mk [[[(1 : ℚ)], [1, 2]], [[3], [4, 5]]]
        [[[1, 1], [1, 0]], [[1, 2, 3], [7]]]).num.headI.headI =
      (TransferFun.mk [[[(1 : ℚ)]]] [[[1, 1]]]).num.headI.headI ∧
      (TransferFun.mk [[[(1 : ℚ)], [1, 2]], [[3], [4, 5]]]
        [[[1, 1], [1, 0]], [[1, 2, 3], [7]]]).den.headI.headI =
      (TransferFun.mk [[[(1 : ℚ)]]] [[[1, 1]]]).den.headI.headI) ∧
    (phaseCrossoverFrequenciesTF
        (TransferFun.mk [[[(1 : ℚ)], [1, 2]], [[3], [4, 5]]]
          [[[1, 1], [1, 0]], [[1, 2, 3], [7]]]) [0, 1] =
      phaseCrossoverFrequenciesTF (TransferFun.mk [[[(1 : ℚ)]]] [[[1, 1]]]) [0, 1] ∧
    phaseCrossoverFrequenciesTF
        (TransferFun.mk [[[(1 : ℚ)], [1, 2]], [[3], [4, 5]]]
          [[[1, 1], [1, 0]], [[1, 2, 3], [7]]]) [0, 1] =
      phase_crossover_frequencies [(1 : ℚ)] [1, 1] [0, 1]) :=
  ⟨⟨rfl, rfl⟩,
    phase_crossover_mimo_ignores_channels
      (TransferFun.mk [[[(1 : ℚ)], [1, 2]], [[3], [4, 5]]]
        [[[1, 1], [1, 0]], [[1, 2, 3], [7]]])
      (TransferFun.mk [[[(1 : ℚ)]]] [[[1, 1]]]) [0, 1] rfl rfl⟩

end Margins
